import Mathlib

/-!
Shallow embedding of `src/automata.py`: the DFA and NFA data model, the two
`run` algorithms, the worklist epsilon-closure, the `toNFA` conversion and
the module-level example automata, together with proofs about them.

Modelling conventions.
* A Python string is a list of characters (`Str`); `[]` is the empty string
  `""`.  The transition dictionaries are keyed by `(state, string)` pairs
  where the string is a single character `[c]` for a real move and `[]`
  (the empty string) for an epsilon move, exactly as in the source.
* A Python `dict` is an insertion-ordered association list; a later binding
  of a key overwrites an earlier one, so lookup prefers the entry that
  appears later in the list.
* A failing dict subscript (`KeyError`, raised by `δ[(q, w[0])]` in
  `DFA.run`) is an explicit error value, never a boolean.
* Every state in the source module is a Python `int`; states are therefore
  `Nat` in the concrete fixtures, while the general definitions are
  parametric in the state type `σ` and alphabet element type `α`.
-/

namespace Automata

/-- Python strings as lists of characters: `[]` models `""`. -/
abbrev Str : Type := List Char

/-- The `KeyError` raised by the dict subscript `self.δ[(q, w[0])]` in
`DFA.run` when the current (state, symbol) pair has no entry: a missing
transition, surfaced as an error value distinct from any boolean. -/
inductive RunError : Type
  | missingTransition
deriving DecidableEq

/-- Python `TypeError`, raised for example by `set(t)` when `t` is not
iterable (in particular when `t` is an `int`). -/
inductive PyTypeError : Type
  | typeError
deriving DecidableEq

/-- The construction-time error the design document asks for when the
components of an automaton violate the data-model invariants.  The
source never raises it from `__init__` (no validation); it exists
here so that absence of validation can be stated. -/
inductive ConstructionError : Type
  | invalidAutomaton
deriving DecidableEq

/-- Python `class DFA`: the five components stored by `DFA.__init__`.
`Q` finite set of states, `Alph` the alphabet `Σ`, `δ` the transition dict
keyed by `(state, one-character string)`, `q0` the start state, `F` the
accepting set. -/
structure DFA (σ α : Type) : Type where
  Q : Finset σ
  Alph : Finset α
  δ : List ((σ × Str) × σ)
  q0 : σ
  F : Finset σ

/-- Python `class NFA`: the five components stored by `NFA.__init__`.
`δ` maps `(state, string)` keys to sets of states; the key `(q, [])`
(empty string) holds the epsilon moves out of `q`.  `S` is the set of
start states. -/
structure NFA (σ α : Type) : Type where
  Q : Finset σ
  Alph : Finset α
  δ : List ((σ × Str) × Finset σ)
  S : Finset σ
  F : Finset σ

variable {σ α β : Type}

section DecEq

variable [DecidableEq σ]

/-- Lookup in a Python dict modelled as an insertion-ordered association
list: a binding appearing later in the list overwrites an earlier binding
of the same key, so the later part of the list is consulted first.
Returns `none` exactly when the key is absent (a subscript would raise
`KeyError`, `.get` would fall back to its default). -/
def dictGet : List ((σ × Str) × β) → (σ × Str) → Option β
  | [], _ => none
  | p :: rest, k =>
    match dictGet rest k with
    | some v => some v
    | none => if p.1 = k then some p.2 else none

/-- The loop of `DFA.run` from an arbitrary current state `q`:
`while w != "": q = self.δ[(q,w[0])]; w = w[1:]` followed by
`return q in self.F`.  The dict subscript raises `KeyError`
(`missingTransition`) when the pair has no entry. -/
def DFA.runFrom (d : DFA σ α) (q : σ) : Str → Except RunError Bool
  | [] => .ok (decide (q ∈ d.F))
  | c :: w =>
    match dictGet d.δ (q, [c]) with
    | some q2 => d.runFrom q2 w
    | none => .error .missingTransition

/-- Method `DFA.run(w)`: the loop above started at `self.q0`. -/
def DFA.run (d : DFA σ α) (w : Str) : Except RunError Bool :=
  d.runFrom d.q0 w

/-- Constructor `DFA.__init__(Q, Σ, δ, q0, F)` as written in the source: it stores the
five components unchanged and performs no validation whatsoever, so it
always succeeds.  The `Except ConstructionError` result type records
explicitly that no construction error is ever raised. -/
def DFA.init (Q : Finset σ) (Alph : Finset α) (δ : List ((σ × Str) × σ))
    (q0 : σ) (F : Finset σ) : Except ConstructionError (DFA σ α) :=
  .ok ⟨Q, Alph, δ, q0, F⟩

/-- Constructor `NFA.__init__(Q, Σ, δ, S, F)` as written in the source: it stores the
five components unchanged and performs no validation whatsoever, so it
always succeeds. -/
def NFA.init (Q : Finset σ) (Alph : Finset α)
    (δ : List ((σ × Str) × Finset σ)) (S : Finset σ) (F : Finset σ) :
    Except ConstructionError (NFA σ α) :=
  .ok ⟨Q, Alph, δ, S, F⟩

/-- Method `NFA.transition(q, x) = self.δ.get((q,x), set())`: the dict lookup with
the empty set as default. -/
def NFA.transition (n : NFA σ α) (q : σ) (x : Str) : Finset σ :=
  (dictGet n.δ (q, x)).getD ∅

/-- The union of all value sets stored in an NFA transition dict; every set
a lookup can return is contained in it.  Used only as the finite bound that
makes the worklist recursion terminate. -/
def dictTargets (m : List ((σ × Str) × Finset σ)) : Finset σ :=
  m.foldr (fun p acc => p.2 ∪ acc) ∅

/-- One epsilon move of `n`: `b` is among the targets stored for the key
`(a, "")`, i.e. reachable from `a` by a single epsilon transition. -/
def NFA.εstep (n : NFA σ α) (a b : σ) : Prop :=
  b ∈ n.transition a []

/-- One subset-simulation step of `NFA.run`:
`new_P = union over q in P of self.transition(q, w[0])`. -/
def NFA.stepSet (n : NFA σ α) (P : Finset σ) (c : Char) : Finset σ :=
  P.biUnion (fun q => n.transition q [c])

end DecEq

section Ord

/- Python states only need equality and hashing; iterating a Python `set`
(as `list(S)` and the `for` loop of the worklist do) yields its elements in an
unspecified order.  The embedding fixes a computable enumeration order for
the worklist by assuming a linear order on states (satisfied by the
integer states every fixture uses); the closure built is the same set in
any enumeration order. -/
variable [LinearOrder σ]

/-- The worklist loop of `NFA.ε_closure`: `C` is the closure built so far
(`C = set(S)` initially), the list is the explore stack (`stack = list(S)`
initially).  Each iteration pops a state `q`, and every epsilon target of
`q` not already in `C` is added to both `C` and the stack.  The source adds
the new states one by one while iterating `self.δ.get((q,""),set())`; since
`C` and that set are sets, adding them as the batch `eps q \ C` builds the
same closure.  The second component counts loop iterations (pops); it is
ghost data used to state the termination bound.  Termination: `heps`
confines every state ever added to the finite `bound`, and a state enters
`C` (hence the stack) at most once. -/
def closureLoop (eps : σ → Finset σ) (bound : Finset σ)
    (heps : ∀ q, eps q ⊆ bound) :
    Finset σ → List σ → Finset σ × Nat
  | C, [] => (C, 0)
  | C, q :: stack =>
    let r := closureLoop eps bound heps (C ∪ (eps q \ C))
      ((eps q \ C).sort (· ≤ ·) ++ stack)
    (r.1, r.2 + 1)
termination_by C stack => ((bound \ C).card, stack.length)
decreasing_by
  by_cases h : eps q \ C = ∅
  · rw [h]
    simp only [Finset.union_empty, Finset.sort_empty, List.nil_append,
      List.length_cons]
    exact Prod.Lex.right _ (Nat.lt_succ_self _)
  · apply Prod.Lex.left
    apply Finset.card_lt_card
    obtain ⟨x, hx⟩ := Finset.nonempty_iff_ne_empty.mpr h
    have hxq : x ∈ eps q := (Finset.mem_sdiff.mp hx).1
    have hxC : x ∉ C := (Finset.mem_sdiff.mp hx).2
    rw [Finset.ssubset_iff_of_subset
      (Finset.sdiff_subset_sdiff le_rfl Finset.subset_union_left)]
    exact ⟨x, Finset.mem_sdiff.mpr ⟨heps q hxq, hxC⟩,
      fun hmem => (Finset.mem_sdiff.mp hmem).2 (Finset.mem_union_right _ hx)⟩

/-- The full worklist run of `NFA.ε_closure(S)`: closure seeded with
`C = set(S)`, stack seeded with `list(S)`, epsilon moves read from
`self.δ.get((q,""),set())`.  Returns the closure together with the ghost
iteration count. -/
def NFA.closureRun (n : NFA σ α) (S : Finset σ) : Finset σ × Nat :=
  closureLoop (fun q => n.transition q []) (S ∪ dictTargets n.δ)
    (fun q => by
      refine Finset.Subset.trans ?_ Finset.subset_union_right
      show (dictGet n.δ (q, [])).getD ∅ ⊆ dictTargets n.δ
      generalize n.δ = m
      induction m with
      | nil => simp [dictGet, dictTargets]
      | cons p rest ih =>
        intro x hx
        simp only [dictGet] at hx
        simp only [dictTargets, List.foldr_cons, Finset.mem_union]
        rcases hrest : dictGet rest (q, ([] : Str)) with _ | v
        · rw [hrest] at hx
          by_cases hk : p.1 = (q, ([] : Str))
          · simp [hk] at hx
            exact Or.inl hx
          · simp [hk] at hx
        · rw [hrest] at hx
          simp only [Option.getD_some] at hx
          refine Or.inr (ih ?_)
          simp [hrest, hx])
    S (S.sort (· ≤ ·))

/-- Method `NFA.ε_closure(S)`: the closure set computed by the worklist loop. -/
def NFA.ε_closure (n : NFA σ α) (S : Finset σ) : Finset σ :=
  (n.closureRun S).1

/-- Number of worklist iterations (`stack.pop()` calls) performed while
computing `NFA.ε_closure(S)`; ghost data for the termination claim. -/
def NFA.εSteps (n : NFA σ α) (S : Finset σ) : Nat :=
  (n.closureRun S).2

/-- The loop of `NFA.run` from an arbitrary frontier `P`:
`while w != "": P = self.ε_closure(new_P); w = w[1:]` followed by
`return not P.isdisjoint(self.F)` (frontier intersects accepting set). -/
def NFA.runFrom (n : NFA σ α) (P : Finset σ) : Str → Bool
  | [] => decide ((P ∩ n.F).Nonempty)
  | c :: w => n.runFrom (n.ε_closure (n.stepSet P c)) w

/-- Method `NFA.run(w)`: the loop above started at `P = self.ε_closure(self.S)`. -/
def NFA.run (n : NFA σ α) (w : Str) : Bool :=
  n.runFrom (n.ε_closure n.S) w

end Ord

/-- Python `set(t)` applied to a transition target state `t`.  Every state
in the source module is an `int` (all of `D0`, `D1`, `N0`, `N1` use states
`0, 1, 2, ...`), and the `set` builtin of CPython applied to an `int`
raises `TypeError` (an int is not iterable) instead of producing the
singleton `{t}`. -/
def pySet (_t : Nat) : Except PyTypeError (Finset Nat) :=
  .error .typeError

/-- Method `DFA.toNFA` as written in the source:
`δ = {s: set(t) for s, t in self.δ.items()}` then
`NFA(self.Q, self.Σ, δ, {self.q0}, self.F)`.  The dict comprehension
evaluates `set(t)` on each stored target state, so it raises `TypeError`
as soon as the transition dict is non-empty (states are ints). -/
def DFA.toNFA (d : DFA Nat α) : Except PyTypeError (NFA Nat α) :=
  (d.δ.mapM (fun p => (pySet p.2).map (fun s => (p.1, s)))).map
    (fun items => ⟨d.Q, d.Alph, items, {d.q0}, d.F⟩)

/-- The conversion §4.1 of the design describes in words: lift the total
function to a singleton-set-valued relation (`t` becomes `{t}`), wrap
`start` into a singleton start-set, introduce no epsilon moves.  Written
from the words of the spec, for comparison with `DFA.toNFA` above. -/
def DFA.toNFAspec (d : DFA σ α) : NFA σ α :=
  ⟨d.Q, d.Alph, d.δ.map (fun p => (p.1, {p.2})), {d.q0}, d.F⟩

/-- Fixture `D0`, the first example DFA of the module:
`L = { words where as come before bs }`; states `{0,1,2}`, alphabet
`{"a","b"}`, start `0`, accepting `{0,1}`. -/
def D0 : DFA Nat Str :=
  ⟨{0, 1, 2}, {['a'], ['b']},
   [((0, ['a']), 0), ((0, ['b']), 1),
    ((1, ['a']), 2), ((1, ['b']), 1),
    ((2, ['a']), 2), ((2, ['b']), 2)],
   0,
   {0, 1}⟩

/-- Fixture `D1`, the second example DFA of the module:
`L = { strings over {0,1} that end with 11 }`; its alphabet is written
`{0,1}` (integers) in the source. -/
def D1 : DFA Nat Nat :=
  ⟨{0, 1, 2}, {0, 1},
   [((0, ['0']), 0), ((0, ['1']), 1),
    ((1, ['0']), 0), ((1, ['1']), 2),
    ((2, ['1']), 2), ((2, ['0']), 0)],
   0,
   {2}⟩

/-- Fixture `N0`, the first example NFA of the module:
`L = { the penultimate symbol is 1 }`; alphabet written `{0,1}` in the
source, no epsilon moves. -/
def N0 : NFA Nat Nat :=
  ⟨{0, 1, 2}, {0, 1},
   [((0, ['0']), {0}), ((0, ['1']), {0, 1}),
    ((1, ['0']), {2}), ((1, ['1']), {2})],
   {0},
   {2}⟩

/-- Fixture `N1`, the epsilon-transition example NFA of the module.  Its dict
literal repeats the key `(2,"0")`; Python keeps only the later binding
`{4}`, which the last-binding-wins `dictGet` reproduces from this list. -/
def N1 : NFA Nat Nat :=
  ⟨{0, 1, 2, 3, 4}, {0, 1},
   [((0, ['0']), {0}), ((0, []), {1}),
    ((1, ['1']), {1}), ((1, []), {2}),
    ((2, ['0']), {0}), ((2, []), {3}), ((2, ['0']), {4})],
   {0},
   {3, 4}⟩

section OrdProofs

variable [LinearOrder σ]

/-! Invariant lemmas about the worklist loop.  They quantify over the
`heps` proof argument, so they apply to the particular instance packed
inside `NFA.closureRun`. -/

/-- Soundness of the worklist: any property that holds on the seeds and is
preserved by single epsilon moves holds on everything the loop returns. -/
theorem closureLoop_sound (eps : σ → Finset σ) (bound : Finset σ)
    (heps : ∀ q, eps q ⊆ bound) (P : σ → Prop)
    (hstep : ∀ q y, P q → y ∈ eps q → P y) :
    ∀ C stack, (∀ x ∈ C, P x) → (∀ x ∈ stack, P x) →
      ∀ x ∈ (closureLoop eps bound heps C stack).1, P x := by
  intro C stack
  induction C, stack using closureLoop.induct eps bound heps with
  | case1 C =>
    intro hC _ x hx
    simp only [closureLoop] at hx
    exact hC x hx
  | case2 C q stack ih =>
    intro hC hstack x hx
    simp only [closureLoop] at hx
    have hq : P q := hstack q (List.mem_cons_self q stack)
    have hnews : ∀ y ∈ eps q \ C, P y := fun y hy =>
      hstep q y hq (Finset.mem_sdiff.mp hy).1
    refine ih ?_ ?_ x hx
    · intro y hy
      rcases Finset.mem_union.mp hy with h | h
      · exact hC y h
      · exact hnews y h
    · intro y hy
      rcases List.mem_append.mp hy with h | h
      · exact hnews y ((Finset.mem_sort _).mp h)
      · exact hstack y (List.mem_cons_of_mem _ h)

/-- The closure built so far only ever grows: the seeds are contained in
the result of the loop. -/
theorem closureLoop_subset_result (eps : σ → Finset σ) (bound : Finset σ)
    (heps : ∀ q, eps q ⊆ bound) :
    ∀ C stack, C ⊆ (closureLoop eps bound heps C stack).1 := by
  intro C stack
  induction C, stack using closureLoop.induct eps bound heps with
  | case1 C =>
    simp only [closureLoop]
    exact Finset.Subset.refl C
  | case2 C q stack ih =>
    simp only [closureLoop]
    simp only [closureLoop] at ih
    exact Finset.Subset.trans Finset.subset_union_left ih

/-- When every state of the current closure is either still pending on the
stack or already has its epsilon moves inside the closure, the final result
is closed under epsilon moves.  The seeding `C = set(S)`, `stack = list(S)`
satisfies this invariant trivially. -/
theorem closureLoop_closed (eps : σ → Finset σ) (bound : Finset σ)
    (heps : ∀ q, eps q ⊆ bound) :
    ∀ C stack, (∀ x ∈ C, x ∈ stack ∨ eps x ⊆ C) →
      ∀ x ∈ (closureLoop eps bound heps C stack).1,
        eps x ⊆ (closureLoop eps bound heps C stack).1 := by
  intro C stack
  induction C, stack using closureLoop.induct eps bound heps with
  | case1 C =>
    intro hinv x hx
    simp only [closureLoop] at hx ⊢
    rcases hinv x hx with h | h
    · exact absurd h (List.not_mem_nil x)
    · exact h
  | case2 C q stack ih =>
    intro hinv x hx
    simp only [closureLoop] at hx ⊢
    refine ih ?_ x hx
    intro y hy
    rcases Finset.mem_union.mp hy with h | h
    · rcases hinv y h with h2 | h2
      · rcases List.mem_cons.mp h2 with h3 | h3
        · subst h3
          refine Or.inr (fun z hz => ?_)
          by_cases hzC : z ∈ C
          · exact Finset.mem_union_left _ hzC
          · exact Finset.mem_union_right _ (Finset.mem_sdiff.mpr ⟨hz, hzC⟩)
        · exact Or.inl (List.mem_append.mpr (Or.inr h3))
      · exact Or.inr (Finset.Subset.trans h2 Finset.subset_union_left)
    · exact Or.inl (List.mem_append.mpr
        (Or.inl ((Finset.mem_sort _).mpr h)))

/-- Iteration bound for the worklist: the number of pops is at most the
initial stack length plus the number of bound states not yet in the
closure, because every state pushed later is new to the closure and the
closure stays inside `bound`. -/
theorem closureLoop_count (eps : σ → Finset σ) (bound : Finset σ)
    (heps : ∀ q, eps q ⊆ bound) :
    ∀ C stack, (closureLoop eps bound heps C stack).2 ≤
      stack.length + (bound \ C).card := by
  intro C stack
  induction C, stack using closureLoop.induct eps bound heps with
  | case1 C =>
    simp [closureLoop]
  | case2 C q stack ih =>
    simp only [closureLoop, List.length_cons]
    have hsub : eps q \ C ⊆ bound \ C := by
      intro x hx
      exact Finset.mem_sdiff.mpr
        ⟨heps q (Finset.mem_sdiff.mp hx).1, (Finset.mem_sdiff.mp hx).2⟩
    have hEq : bound \ (C ∪ (eps q \ C)) = (bound \ C) \ (eps q \ C) := by
      ext x
      simp only [Finset.mem_sdiff, Finset.mem_union]
      tauto
    have hcard : ((bound \ C) \ (eps q \ C)).card =
        (bound \ C).card - (eps q \ C).card := Finset.card_sdiff hsub
    have hle : (eps q \ C).card ≤ (bound \ C).card := Finset.card_le_card hsub
    have hlen : ((eps q \ C).sort (· ≤ ·)).length = (eps q \ C).card :=
      Finset.length_sort _
    rw [List.length_append, hlen, hEq, hcard] at ih
    omega

/-- Membership in `NFA.ε_closure(S)` is exactly epsilon-reachability from
some seed in `S`: the worklist computes the reflexive-transitive closure
of the epsilon-move relation applied to `S`. -/
theorem NFA.mem_ε_closure (n : NFA σ α) (S : Finset σ) (x : σ) :
    x ∈ n.ε_closure S ↔ ∃ s ∈ S, Relation.ReflTransGen n.εstep s x := by
  unfold NFA.ε_closure NFA.closureRun
  constructor
  · intro hx
    refine closureLoop_sound _ _ _
      (fun y => ∃ s ∈ S, Relation.ReflTransGen n.εstep s y) ?_ S
      (S.sort (· ≤ ·)) ?_ ?_ x hx
    · rintro q y ⟨s, hs, hrt⟩ hy
      exact ⟨s, hs, Relation.ReflTransGen.tail hrt hy⟩
    · intro y hy
      exact ⟨y, hy, Relation.ReflTransGen.refl⟩
    · intro y hy
      exact ⟨y, (Finset.mem_sort _).mp hy, Relation.ReflTransGen.refl⟩
  · rintro ⟨s, hs, hrt⟩
    induction hrt with
    | refl => exact closureLoop_subset_result _ _ _ S (S.sort (· ≤ ·)) hs
    | tail hab hbc ih =>
      refine closureLoop_closed _ _ _ S (S.sort (· ≤ ·)) ?_ _ ih hbc
      intro y hy
      exact Or.inl ((Finset.mem_sort _).mpr hy)

/-- The epsilon closure of the empty frontier is empty: the worklist starts
with an empty closure and an empty stack and stops immediately. -/
theorem NFA.ε_closure_empty (n : NFA σ α) : n.ε_closure (∅ : Finset σ) = ∅ := by
  apply Finset.eq_empty_iff_forall_not_mem.mpr
  intro x hx
  obtain ⟨s, hs, _⟩ := (n.mem_ε_closure ∅ x).mp hx
  exact absurd hs (Finset.not_mem_empty s)

/-- C4: `ε_closure` is a closure operator on state sets: every set is
contained in its epsilon closure (extensiveness), and applying the closure
twice gives the same set as applying it once (idempotence). -/
theorem εClosure_extensive_idempotent (n : NFA σ α) (S : Finset σ) :
    S ⊆ n.ε_closure S ∧ n.ε_closure (n.ε_closure S) = n.ε_closure S := by
  have hext : ∀ T : Finset σ, T ⊆ n.ε_closure T := by
    intro T x hx
    exact (n.mem_ε_closure T x).mpr ⟨x, hx, Relation.ReflTransGen.refl⟩
  refine ⟨hext S, Finset.Subset.antisymm ?_ (hext _)⟩
  intro x hx
  obtain ⟨s, hs, hrt⟩ := (n.mem_ε_closure _ x).mp hx
  obtain ⟨t, ht, hrt2⟩ := (n.mem_ε_closure S s).mp hs
  exact (n.mem_ε_closure S x).mpr ⟨t, ht, hrt2.trans hrt⟩

/-- C10: `ε_closure` distributes over union of state sets, and is
consequently monotone with respect to set inclusion. -/
theorem εClosure_union_monotone (n : NFA σ α) (S T : Finset σ) :
    n.ε_closure (S ∪ T) = n.ε_closure S ∪ n.ε_closure T ∧
    (S ⊆ T → n.ε_closure S ⊆ n.ε_closure T) := by
  constructor
  · ext x
    simp only [Finset.mem_union, n.mem_ε_closure]
    constructor
    · rintro ⟨s, hs, hrt⟩
      rcases hs with h | h
      · exact Or.inl ⟨s, h, hrt⟩
      · exact Or.inr ⟨s, h, hrt⟩
    · rintro (⟨s, hs, hrt⟩ | ⟨s, hs, hrt⟩)
      · exact ⟨s, Or.inl hs, hrt⟩
      · exact ⟨s, Or.inr hs, hrt⟩
  · intro hST x hx
    obtain ⟨s, hs, hrt⟩ := (n.mem_ε_closure S x).mp hx
    exact (n.mem_ε_closure T x).mpr ⟨s, hST hs, hrt⟩

/-- C5: an NFA accepts the empty string exactly when the epsilon closure of
its start-state set already meets the accepting set. -/
theorem run_nil_accept_iff (n : NFA σ α) :
    n.run [] = true ↔ (n.ε_closure n.S ∩ n.F).Nonempty := by
  simp [NFA.run, NFA.runFrom]

/-- C6: a dead frontier stays dead.  From the empty frontier every
remaining step produces the empty frontier again (the union over no states
is empty and so is its epsilon closure), and the run returns the plain
boolean `false` — no error is possible, the simulation is total. -/
theorem empty_frontier_propagates (n : NFA σ α) (w : Str) :
    n.runFrom ∅ w = false ∧
    ∀ c, n.ε_closure (n.stepSet ∅ c) = ∅ := by
  have hstep : ∀ c, n.stepSet (∅ : Finset σ) c = ∅ := by
    intro c
    simp [NFA.stepSet]
  refine ⟨?_, fun c => by rw [hstep c, n.ε_closure_empty]⟩
  induction w with
  | nil => simp [NFA.runFrom]
  | cons c w ih =>
    simp only [NFA.runFrom, hstep c, n.ε_closure_empty]
    exact ih

/-- C7: termination bound for the worklist.  The number of iterations of
the `ε_closure` loop (stack pops) is at most the number of candidate states —
the seeds together with every state stored as a transition target — because
the membership check `new_q not in C` lets each state enter the worklist at
most once.  (That the loop terminates at all is recorded by `closureLoop`
being a total function.) -/
theorem εClosure_steps_le (n : NFA σ α) (S : Finset σ) :
    n.εSteps S ≤ (S ∪ dictTargets n.δ).card := by
  unfold NFA.εSteps NFA.closureRun
  refine le_trans (closureLoop_count _ _ _ S (S.sort (· ≤ ·))) ?_
  rw [Finset.length_sort, Finset.card_sdiff Finset.subset_union_left]
  have h := Finset.card_le_card
    (Finset.subset_union_left : S ⊆ S ∪ dictTargets n.δ)
  omega

/-! Support for the `toNFA` claim: the conversion written from the words
of the spec (`DFA.toNFAspec`) really is acceptance-preserving, so the
stated design property is achievable and the `set(t)` slip in the source is the only
obstacle. -/

/-- Looking up the dict of the spec conversion wraps the underlying DFA lookup
into a singleton. -/
theorem dictGet_toNFAspec (m : List ((σ × Str) × σ)) (k : σ × Str) :
    dictGet (m.map (fun p => (p.1, ({p.2} : Finset σ)))) k =
      (dictGet m k).map (fun t => {t}) := by
  induction m with
  | nil => rfl
  | cons p rest ih =>
    simp only [List.map_cons, dictGet, ih]
    cases dictGet rest k with
    | none => simp
    | some v => simp

/-- An NFA without epsilon moves has identity epsilon closures. -/
theorem ε_closure_id_of_no_eps (n : NFA σ α)
    (h : ∀ q, n.transition q [] = ∅) (T : Finset σ) :
    n.ε_closure T = T := by
  ext x
  rw [n.mem_ε_closure]
  constructor
  · rintro ⟨s, hs, hrt⟩
    have hsx : s = x := by
      induction hrt with
      | refl => rfl
      | tail hab hbc ih =>
        simp only [NFA.εstep, h] at hbc
        exact absurd hbc (Finset.not_mem_empty _)
    exact hsx ▸ hs
  · intro hx
    exact ⟨x, hx, Relation.ReflTransGen.refl⟩

/-- The conversion described by the spec preserves acceptance along every
successful DFA run: whenever the DFA loop from state `q` returns the
boolean `b`, the subset simulation of `toNFAspec` from the frontier `{q}`
returns the same `b`.  The hypothesis says the DFA dict has no entries
keyed by the empty string, so the conversion introduces no epsilon moves
(`DFA.run` itself never consults such keys). -/
theorem toNFAspec_runFrom_eq (d : DFA σ α)
    (hnoeps : ∀ q, dictGet d.δ (q, ([] : Str)) = none) :
    ∀ (w : Str) (q : σ) (b : Bool), d.runFrom q w = .ok b →
      (d.toNFAspec).runFrom {q} w = b := by
  have htr : ∀ q, (d.toNFAspec).transition q [] = ∅ := by
    intro q
    simp [NFA.transition, DFA.toNFAspec, dictGet_toNFAspec, hnoeps q]
  intro w
  induction w with
  | nil =>
    intro q b h
    simp only [DFA.runFrom, Except.ok.injEq] at h
    subst h
    by_cases hq : q ∈ d.F
    · simp [NFA.runFrom, DFA.toNFAspec, Finset.singleton_inter_of_mem hq, hq]
    · simp [NFA.runFrom, DFA.toNFAspec, Finset.singleton_inter_of_not_mem hq, hq]
  | cons c w ih =>
    intro q b h
    simp only [DFA.runFrom] at h
    rcases hlook : dictGet d.δ (q, [c]) with _ | t
    · rw [hlook] at h
      exact absurd h (fun h2 => Except.noConfusion h2)
    · rw [hlook] at h
      have hfront : (d.toNFAspec).stepSet {q} c = {t} := by
        simp [NFA.stepSet, NFA.transition, DFA.toNFAspec, dictGet_toNFAspec,
          hlook]
      simp only [NFA.runFrom, hfront, ε_closure_id_of_no_eps _ htr]
      exact ih t b h

/-- Acceptance preservation for the conversion the spec describes, at the level of
`run`: every input accepted or rejected by the DFA gets the same verdict
from the converted NFA. -/
theorem toNFAspec_preserves_acceptance (d : DFA σ α)
    (hnoeps : ∀ q, dictGet d.δ (q, ([] : Str)) = none)
    (w : Str) (b : Bool) (h : d.run w = .ok b) :
    (d.toNFAspec).run w = b := by
  have hstart : (d.toNFAspec).ε_closure {d.q0} = {d.q0} := by
    apply ε_closure_id_of_no_eps
    intro q
    simp [NFA.transition, DFA.toNFAspec, dictGet_toNFAspec, hnoeps q]
  have : (d.toNFAspec).S = {d.q0} := rfl
  rw [NFA.run, this, hstart]
  exact toNFAspec_runFrom_eq d hnoeps w d.q0 b h

end OrdProofs

section DecEqProofs

variable [DecidableEq σ]

/-- C2: whenever the loop of `DFA.run` is at state `q` and the next symbol `c`
has no entry `(q, c)` in the transition dict, the run fails with the
distinct `missingTransition` error (the `KeyError` of the dict subscript
`self.δ[(q,w[0])]`), and in particular never returns the boolean `false`;
`DFA.run w` is by definition this loop started at `q0`, so the statement
covers every reachable configuration of every run. -/
theorem dfa_missing_transition_errors (d : DFA σ α) (q : σ) (c : Char)
    (w : Str) (h : dictGet d.δ (q, [c]) = none) :
    d.runFrom q (c :: w) = .error RunError.missingTransition ∧
    d.runFrom q (c :: w) ≠ .ok false := by
  have herr : d.runFrom q (c :: w) = .error RunError.missingTransition := by
    simp only [DFA.runFrom, h]
  exact ⟨herr, by rw [herr]; exact fun h2 => Except.noConfusion h2⟩

/-- C9: on the empty input string the DFA loop body never executes, so no
dict lookup happens: the result is `ok (q0 ∈ F)` for every DFA — including
one whose transition dict is completely empty — and can never be the
`missingTransition` error. -/
theorem dfa_run_nil_no_lookup (d : DFA σ α) :
    d.run [] = .ok (decide (d.q0 ∈ d.F)) ∧
    ∀ e : RunError, d.run [] ≠ .error e :=
  ⟨rfl, fun _ h => Except.noConfusion h⟩

end DecEqProofs

/-- C3 (amended): construction never validates and never fails.  Both
`__init__` methods store their five components unchanged and raise nothing,
so every construction — including one whose components violate the
data-model invariants — succeeds, and any failure is deferred to `run`. -/
theorem construction_never_fails (Q : Finset σ) (Alph : Finset α)
    (δd : List ((σ × Str) × σ)) (q0 : σ) (Fd : Finset σ) (Qn : Finset σ)
    (Alphn : Finset α) (δn : List ((σ × Str) × Finset σ))
    (Sn Fn : Finset σ) :
    DFA.init Q Alph δd q0 Fd = .ok ⟨Q, Alph, δd, q0, Fd⟩ ∧
    NFA.init Qn Alphn δn Sn Fn = .ok ⟨Qn, Alphn, δn, Sn, Fn⟩ :=
  ⟨rfl, rfl⟩

/-- C3 (counterexample): constructing a DFA whose start state `5` is not a
member of its declared state set `{0, 1}` does not fail at construction
time — `__init__` performs no validation, the call succeeds and returns
the malformed automaton unchanged, and no `ConstructionError` is raised;
running the malformed automaton afterwards even succeeds (with `false`),
so nothing about the violation ever surfaces at construction. -/
theorem construction_no_validation_cex :
    DFA.init ({0, 1} : Finset Nat) (∅ : Finset Nat) [] 5 ∅ =
      .ok ⟨{0, 1}, ∅, [], 5, ∅⟩ ∧
    (5 : Nat) ∉ ({0, 1} : Finset Nat) ∧
    (DFA.mk ({0, 1} : Finset Nat) (∅ : Finset Nat) [] 5 ∅).run [] =
      .ok false :=
  ⟨rfl, by decide, rfl⟩

/-- C2 (witness): the concrete automaton `D0` has no transition out of
state `0` on the symbol `c`, and running the loop there yields the
`missingTransition` error, not the boolean `false`. -/
theorem dfa_missing_transition_errors_witness :
    dictGet D0.δ ((0 : Nat), ['c']) = none ∧
    (D0.runFrom 0 ['c'] = .error RunError.missingTransition ∧
     D0.runFrom 0 ['c'] ≠ .ok false) :=
  ⟨by decide, dfa_missing_transition_errors D0 0 'c' [] (by decide)⟩

/-- C8: the conformance cases the module itself lists for `D0` (words
where as come before bs): running aabb accepts, bba and aba reject, each
returning an ordinary boolean (no error). -/
theorem D0_example_runs :
    D0.run ['a', 'a', 'b', 'b'] = .ok true ∧
    D0.run ['b', 'b', 'a'] = .ok false ∧
    D0.run ['a', 'b', 'a'] = .ok false :=
  ⟨rfl, rfl, rfl⟩

/-- C1 (the code evaluated at the failing input): `toNFA` applied to the
example `D0` of the module itself raises `TypeError` instead of producing an
equivalent NFA, because the comprehension `{s: set(t) for s, t in
self.δ.items()}` calls `set` on each integer target state rather than
building the singleton `{t}`.  The conversion written from the words of
words does preserve acceptance (`toNFAspec_preserves_acceptance`), so the
stated property is achievable and `set(t)` is the sole obstacle. -/
theorem toNFA_D0_raises_typeError :
    DFA.toNFA D0 = .error PyTypeError.typeError := rfl

/-- C10 (witness): distribution over union and monotonicity instantiated
on the concrete automaton `N0`, with the inclusion hypothesis discharged
by computation. -/
theorem εClosure_union_monotone_witness :
    ({0} : Finset Nat) ⊆ {0, 1} ∧
    (N0.ε_closure ({0} ∪ {0, 1}) = N0.ε_closure {0} ∪ N0.ε_closure {0, 1} ∧
     N0.ε_closure {0} ⊆ N0.ε_closure {0, 1}) :=
  ⟨by decide, (εClosure_union_monotone N0 {0} {0, 1}).1,
    (εClosure_union_monotone N0 {0} {0, 1}).2 (by decide)⟩

end Automata
